import Mathlib

set_option maxHeartbeats 1000000
set_option maxRecDepth 4000

/-!
Verification of the string-rewrapping engine in `src/rework_string.rs`.

Text is modelled as `List Char`; byte indices of the Rust code become
character indices (each `Char` stands for one grapheme, the unit all of
the code's width arithmetic is expressed in).  The external collaborators
of the engine — the UAX#14 line-break algorithm of the `unicode_linebreak`
crate, the Unicode category tables of `unicode_categories`, the display
width `crate::utils::unicode_str_width` and the final defensive pass
`crate::utils::wrap_str` (the latter two are repository code that is not
part of the shown sources) — are abstracted into a `UnicodeEnv` record of
functions, together with the few well-formedness facts about real Unicode
data that the proofs need (break positions are positive; a space-separator
character is whitespace of display width at least one; a line feed is not
a space separator).  Everything else is translated directly from
`rework_string.rs`.
-/

/-- Break kinds of the UAX#14 algorithm (`unicode_linebreak::BreakOpportunity`). -/
inductive BreakOpportunity where
  | Mandatory
  | Allowed
deriving DecidableEq, Repr

/-- Modelled from the spec: the `shape` handed over by the embedding
pretty-printer — an available column width plus an indentation descriptor,
kept here as the rendered indentation string (`crate::shape::Shape` is not
part of the shown sources). -/
structure Shape where
  width : Nat
  indent : List Char
deriving DecidableEq, Repr

/-- Modelled from the spec: the part of `crate::config::Config` the engine
reads — the global `max_width` (the config type is not part of the shown
sources). -/
structure Config where
  max_width : Nat
deriving DecidableEq, Repr

/-- The external functions the engine calls, abstracted: Unicode category
predicates, the display width of a character, the UAX#14 candidate
sequence, and (modelled from the spec) the defensive final pass
`crate::utils::wrap_str`, which is repository code not among the shown
sources.  The three proof fields record facts of the real Unicode data:
the UAX#14 algorithm never breaks before the first character, a
space-separator (Zs) character is whitespace and occupies at least one
column, and the line feed is a control character, not a space separator. -/
structure UnicodeEnv where
  charWidth : Char → Nat
  isPd : Char → Bool
  isPo : Char → Bool
  isZs : Char → Bool
  linebreaks : List Char → List (Nat × BreakOpportunity)
  wrapStr : List Char → Nat → Shape → Option (List Char)
  linebreaks_pos : ∀ t p, p ∈ linebreaks t → 0 < p.1
  zs_width : ∀ c, isZs c = true → 1 ≤ charWidth c
  zs_whitespace : ∀ c, isZs c = true → c.isWhitespace = true
  newline_not_zs : isZs '\n' = false

/-- Modelled from the spec: `crate::utils::unicode_str_width`, the displayed
width of a piece of text — the sum of the widths of its characters. -/
def unicode_str_width (u : UnicodeEnv) (s : List Char) : Nat :=
  (s.map u.charWidth).sum

/-- The layout policy `StringFormat` of `rework_string.rs`. -/
structure StringFormat where
  opener : List Char
  closer : List Char
  line_start : List Char
  line_end : List Char
  shape : Shape
  trim_end : Bool
  config : Config
deriving DecidableEq, Repr

/-- `StringFormat::max_width_with_indent`:
`shape.width.checked_sub(opener.len() + line_end.len() + 1)? + 1`. -/
def StringFormat.max_width_with_indent (fmt : StringFormat) : Option Nat :=
  if fmt.opener.length + fmt.line_end.length + 1 ≤ fmt.shape.width then
    some (fmt.shape.width - (fmt.opener.length + fmt.line_end.length + 1) + 1)
  else
    none

/-- `StringFormat::max_width_without_indent`:
`config.max_width().checked_sub(line_end.len())`. -/
def StringFormat.max_width_without_indent (fmt : StringFormat) : Option Nat :=
  if fmt.line_end.length ≤ fmt.config.max_width then
    some (fmt.config.max_width - fmt.line_end.length)
  else
    none

/-- Modelled from the spec: `Indent::to_string_with_newline` — a real
newline followed by the rendered indentation (`crate::shape` is not part of
the shown sources). -/
def indent_with_newline (fmt : StringFormat) : List Char :=
  '\n' :: fmt.shape.indent

/-- Modelled from the spec: `Indent::to_string` — the rendered
indentation without a newline. -/
def indent_without_newline (fmt : StringFormat) : List Char :=
  fmt.shape.indent

/-- First index at which `pat` occurs as a contiguous part of the text
(`str::find` on a substring pattern). -/
def findSub (pat : List Char) : List Char → Option Nat
  | [] => if pat = [] then some 0 else none
  | c :: rest =>
    if pat.isPrefixOf (c :: rest) then some 0
    else (findSub pat rest).map (· + 1)

/-- Substring containment (`str::contains`). -/
def containsSub (pat : List Char) (l : List Char) : Bool :=
  (findSub pat l).isSome

/-- `contains_url`: check if the input text contains a URL marker. -/
def contains_url (text : List Char) : Bool :=
  containsSub "https://".toList text
    || containsSub "http://".toList text
    || containsSub "ftp://".toList text
    || containsSub "file://".toList text

/-- Alias for `contains_url`, usable inside the `StringSplitter`
namespace where the bare name resolves to the structure field. -/
def containsUrl (text : List Char) : Bool :=
  contains_url text

/-- The filter applied to each UAX#14 candidate in
`line_break_opportunities`: reject a prefix ending in a backslash or a
punctuation dash; otherwise accept on width, with the one-past-the-budget
exception for a trimmable trailing space separator. -/
def lboKeep (u : UnicodeEnv) (text : List Char) (max_graphemes : Nat) (trim_end : Bool)
    (byte_idx : Nat) : Bool :=
  let snippet := text.take byte_idx
  if snippet.getLast? = some '\\' ∨ snippet.getLast?.map u.isPd = some true then
    false
  else if unicode_str_width u snippet ≤ max_graphemes then
    true
  else if unicode_str_width u snippet = max_graphemes + 1 then
    trim_end && decide (snippet.getLast?.map u.isZs = some true)
  else
    false

/-- `line_break_opportunities`: the UAX#14 candidates of the text filtered
by `lboKeep`. -/
def line_break_opportunities (u : UnicodeEnv) (text : List Char) (max_graphemes : Nat)
    (trim_end : Bool) : List (Nat × BreakOpportunity) :=
  (u.linebreaks text).filter fun p => lboKeep u text max_graphemes trim_end p.1

/-- `is_punctuation`: membership of a grapheme in the "Punctuation, Other"
category. -/
def is_punctuation (u : UnicodeEnv) (g : Char) : Bool :=
  u.isPo g

/-- `is_whitespace` on a single grapheme. -/
def is_whitespace (g : Char) : Bool :=
  g.isWhitespace

/-- `is_whitespace` applied to a whole text fragment (as the code does to
`line_start`): every character is whitespace. -/
def is_whitespace_str (s : List Char) : Bool :=
  s.all Char.isWhitespace

/-- The `tuple_windows` of `grapheme_indices`: consecutive pairs of
characters with the index of the first one. -/
def graphemePairs : Nat → List Char → List (Nat × Char × Char)
  | _, [] => []
  | _, [_] => []
  | i, a :: b :: rest => (i, a, b) :: graphemePairs (i + 1) (b :: rest)

/-- `alternative_punctuation_breaks`: indices right after an
other-punctuation grapheme whose successor is neither punctuation nor an
untrimmable whitespace, within the width budget. -/
def alternative_punctuation_breaks (u : UnicodeEnv) (text : List Char) (max_graphemes : Nat)
    (trim_end : Bool) : List Nat :=
  (graphemePairs 0 text).filterMap fun w =>
    if is_punctuation u w.2.1 = false
        ∨ (trim_end = false ∧ is_whitespace w.2.2 = true)
        ∨ is_punctuation u w.2.2 = true then
      none
    else if unicode_str_width u (text.take (w.1 + 1)) ≤ max_graphemes then
      some (w.1 + 1)
    else
      none

/-- Trailing-whitespace removal, the shared semantics of `str::trim_end`
and of `trim_end_whitespace` in the source. -/
def trimEnd (l : List Char) : List Char :=
  ((l.reverse).dropWhile Char.isWhitespace).reverse

/-- `trim_end_but_line_feed`: remove trailing whitespace but keep a single
trailing newline, and only when `trim_end` is set. -/
def trim_end_but_line_feed (text : List Char) (trim_end : Bool) : List Char :=
  if trim_end = false then
    text
  else
    let ends_with_newline := text.getLast? = some '\n'
    let t := trimEnd text
    if ends_with_newline then t ++ ['\n'] else t

/-- The cursor `StringSplitter` of the source, minus the borrowed
lifetime bookkeeping. -/
structure StringSplitter where
  text : List Char
  offset : Nat
  max_graphemes : Nat
  max_graphemes_with_indent : Nat
  max_graphemes_without_indent : Nat
  newline_max_graphemes : Nat
  is_bareline_ok : Bool
  trim_end : Bool
  contains_url : Bool
deriving DecidableEq, Repr

/-- The four snippet states produced by a splitter step. -/
inductive SnippetState where
  | EndOfInput (text : List Char)
  | LineEnd (text : List Char) (offset : Nat)
  | EndWithLineFeed (text : List Char) (offset : Nat)
  | RemovedSignificantLineFeed (text : List Char) (offset : Nat)
deriving DecidableEq, Repr

/-- `safe_break_after_url`: the next break opportunity after the first URL
of the text — the first UAX#14 candidate at or past the first whitespace
following the first `"://"`, or the end of the text when no whitespace
follows. -/
def safe_break_after_url (u : UnicodeEnv) (s : List Char) : Option Nat :=
  if contains_url s = false then
    none
  else
    match findSub "://".toList s with
    | none => none
    | some byte_index =>
      match (s.drop byte_index).findIdx? (fun c => c.isWhitespace) with
      | some pos =>
        (((u.linebreaks s).filter fun p => decide (byte_index + pos ≤ p.1)).head?).map Prod.fst
      | none => some s.length

/-- The URL-adjustment prologue of `StringSplitter::update`: possibly push
the split index past the first URL and refresh the `contains_url` flag. -/
def urlAdjust (u : UnicodeEnv) (s : StringSplitter) (split_index : Nat) :
    Nat × StringSplitter :=
  if s.contains_url then
    match safe_break_after_url u s.text with
    | some i =>
      let cu := contains_url (s.text.drop i)
      (if split_index < i then i else split_index, { s with contains_url := cu })
    | none => (split_index, s)
  else
    (split_index, s)

/-- The budget update shared by the two newline branches of
`StringSplitter::update`. -/
def nextBudgetAfterNewline (s : StringSplitter) : StringSplitter :=
  { s with
    max_graphemes :=
      if s.is_bareline_ok then s.max_graphemes_without_indent
      else s.max_graphemes_with_indent }

/-- The slicing and classification part of `StringSplitter::update`,
applied after the URL adjustment: slice the remaining text, advance the
offset, trim when allowed, and classify the consumed slice into a
`SnippetState`. -/
def classifySlice (s1 : StringSplitter) (j : Nat) : SnippetState × StringSplitter :=
  let text0 := s1.text.take j
  let remainder := s1.text.drop j
  let s2 : StringSplitter := { s1 with text := remainder, offset := s1.offset + j }
  let ends_with_newline : Bool := decide (text0.getLast? = some '\n')
  let text1 := if s2.trim_end && !ends_with_newline then trimEnd text0 else text0
  if remainder = [] then
    (SnippetState.EndOfInput text1, s2)
  else if !s2.trim_end && ends_with_newline then
    (SnippetState.EndWithLineFeed text1 s2.offset, nextBudgetAfterNewline s2)
  else if s2.trim_end && ends_with_newline then
    (SnippetState.RemovedSignificantLineFeed (trimEnd text1) s2.offset, nextBudgetAfterNewline s2)
  else
    (SnippetState.LineEnd text1 s2.offset, { s2 with max_graphemes := s2.newline_max_graphemes })

/-- `StringSplitter::update`: the URL adjustment followed by slicing and
classification. -/
def StringSplitter.update (u : UnicodeEnv) (s : StringSplitter) (split_index : Nat) :
    SnippetState × StringSplitter :=
  classifySlice (urlAdjust u s split_index).2 (urlAdjust u s split_index).1

/-- The candidate loop of `StringSplitter::next`: return the first
Mandatory index, short-circuiting; otherwise remember the index of every
Allowed candidate seen, ending with the last one (or the accumulator when
none occurred). -/
def scanBreaks : List (Nat × BreakOpportunity) → Nat → Sum Nat Nat
  | [], acc => Sum.inr acc
  | (i, BreakOpportunity.Mandatory) :: _, _ => Sum.inl i
  | (i, BreakOpportunity.Allowed) :: rest, _ => scanBreaks rest i

/-- `StringSplitter::next` (the `Iterator` implementation): pick the break
index by priority — first Mandatory, else last Allowed (when non-zero),
else last punctuation break, else the whole remaining text — and run
`update` on it. -/
def StringSplitter.next (u : UnicodeEnv) (s : StringSplitter) :
    Option (SnippetState × StringSplitter) :=
  if s.text = [] then
    none
  else
    match scanBreaks (line_break_opportunities u s.text s.max_graphemes s.trim_end) 0 with
    | Sum.inl m => some (StringSplitter.update u s m)
    | Sum.inr allowed_break_idx =>
      if allowed_break_idx ≠ 0 then
        some (StringSplitter.update u s allowed_break_idx)
      else
        match (alternative_punctuation_breaks u s.text s.max_graphemes s.trim_end).getLast? with
        | some punctuation_break => some (StringSplitter.update u s punctuation_break)
        | none => some (StringSplitter.update u s s.text.length)

/-- `StringSplitter::from_format`: derive the two budgets (failing on
underflow), the bareline flag and the URL flag. -/
def StringSplitter.from_format (text : List Char) (fmt : StringFormat)
    (newline_max_graphemes : Nat) : Option StringSplitter :=
  let cu := containsUrl text
  match fmt.max_width_with_indent, fmt.max_width_without_indent with
  | some mwi, some mwo =>
    some
      { text := text
        offset := 0
        max_graphemes := mwi
        max_graphemes_with_indent := mwi
        max_graphemes_without_indent := mwo
        newline_max_graphemes := newline_max_graphemes
        is_bareline_ok := fmt.line_start.isEmpty || is_whitespace_str fmt.line_start
        trim_end := fmt.trim_end
        contains_url := cu }
  | _, _ => none

/-- Count the leading backslashes of a text and return the rest. -/
def countBackslashes : List Char → Nat × List Char
  | [] => (0, [])
  | c :: rest =>
    if c = '\\' then
      let p := countBackslashes rest
      (p.1 + 1, p.2)
    else (0, c :: rest)

/-- The POSIX `[[:space:]]` class used by the `regex` crate. -/
def isAsciiSpace (c : Char) : Bool :=
  c = ' ' || c = '\t' || c = '\n' || c = '\r' || c = '\x0b' || c = '\x0c'

/-- Drop a leading run of `[[:space:]]` characters. -/
def dropAsciiSpaces : List Char → List Char
  | [] => []
  | c :: rest => if isAsciiSpace c then dropAsciiSpaces rest else c :: rest

/-- One left-to-right, non-overlapping `replace_all` pass of the
preprocessing regex `([^\x7b:space:\x7d]...)`, precisely
`([^\\](\\\\)*)\\[\n\r][[:space:]]*` replaced by `$1`: a non-backslash
character followed by an odd run of backslashes and a line terminator
loses the final backslash, the terminator and the following whitespace
run.  The fuel argument only drives the recursion; every step consumes at
least one character, so `fuel = length` (as used by `stripLineBreaks`)
never runs out. -/
def stripLineBreaksAux : Nat → List Char → List Char
  | 0, l => l
  | _ + 1, [] => []
  | fuel + 1, c :: rest =>
    if c = '\\' then
      c :: stripLineBreaksAux fuel rest
    else
      match countBackslashes rest with
      | (k, d :: r') =>
        if (d = '\n' ∨ d = '\r') ∧ k % 2 = 1 then
          c :: (List.replicate (k - 1) '\\' ++ stripLineBreaksAux fuel (dropAsciiSpaces r'))
        else
          c :: stripLineBreaksAux fuel rest
      | (_, []) => c :: stripLineBreaksAux fuel rest

/-- The preprocessing of `rewrite_string`: collapse escaped-newline
continuations, i.e. `replace_all` of `([^\\](\\\\)*)\\[\n\r][[:space:]]*`
with `$1`. -/
def stripLineBreaks (l : List Char) : List Char :=
  stripLineBreaksAux l.length l

/-- The body of the assembly loop of `rewrite_string`: append one snippet
state to the buffer together with its markers and indentation. -/
def emitSnippet (fmt : StringFormat) (bare : Bool) (acc : List Char) :
    SnippetState → List Char
  | SnippetState.LineEnd line _ =>
    acc ++ line ++ fmt.line_end ++ indent_with_newline fmt ++ fmt.line_start
  | SnippetState.EndWithLineFeed line _ =>
    (if line = ['\n'] ∧ fmt.trim_end = true then trim_end_but_line_feed acc true else acc)
      ++ line ++ (if bare then [] else indent_without_newline fmt ++ fmt.line_start)
  | SnippetState.RemovedSignificantLineFeed line _ =>
    (if line = [] then trim_end_but_line_feed acc true ++ ['\n'] else acc ++ line ++ ['\n'])
      ++ (if bare then [] else indent_without_newline fmt ++ fmt.line_start)
  | SnippetState.EndOfInput line =>
    (if line = ['\n'] then trim_end_but_line_feed acc true else acc) ++ line

/-- Drive the splitter to exhaustion, folding each snippet into the
buffer.  The fuel only bounds the recursion; each step strictly shrinks
the remaining text, so the `length + 1` fuel given by `rewrite_string`
never runs out. -/
def runLoop (u : UnicodeEnv) (fmt : StringFormat) (bare : Bool) :
    Nat → StringSplitter → List Char → List Char
  | 0, _, acc => acc
  | fuel + 1, sp, acc =>
    match StringSplitter.next u sp with
    | none => acc
    | some (st, sp') => runLoop u fmt bare fuel sp' (emitSnippet fmt bare acc st)

/-- `rewrite_string`: strip continuations, build the splitter (failing on
budget underflow), run the loop between `opener` and `closer`, and hand
the buffer to the defensive final pass. -/
def rewrite_string (u : UnicodeEnv) (orig : List Char) (fmt : StringFormat)
    (newline_max_chars : Nat) : Option (List Char) :=
  let stripped := stripLineBreaks orig
  match StringSplitter.from_format stripped fmt newline_max_chars with
  | none => none
  | some sp =>
    u.wrapStr
      (runLoop u fmt sp.is_bareline_ok (stripped.length + 1) sp fmt.opener ++ fmt.closer)
      fmt.config.max_width fmt.shape

/-- The buffer `rewrite_string` hands to the defensive final pass (empty
in the underflow case, where the pass is never reached). -/
def assembleResult (u : UnicodeEnv) (orig : List Char) (fmt : StringFormat)
    (newline_max_chars : Nat) : List Char :=
  let stripped := stripLineBreaks orig
  match StringSplitter.from_format stripped fmt newline_max_chars with
  | none => []
  | some sp =>
    runLoop u fmt sp.is_bareline_ok (stripped.length + 1) sp fmt.opener ++ fmt.closer

/-- Split a buffer into its lines at newline characters (used to state
facts about individual emitted lines of the final output). -/
def linesOf : List Char → List (List Char)
  | [] => [[]]
  | c :: rest =>
    match linesOf rest with
    | [] => [[c]]
    | l :: ls => if c = '\n' then [] :: l :: ls else (c :: l) :: ls

/-- Modelled from the spec: the defensive final pass
`crate::utils::wrap_str` as a concrete global width check over the
assembled buffer — the first line must fit within the shape's width and
every following line within the global `max_width`; on failure the pass
yields `none` and the buffer is returned unchanged on success. -/
def specWrapStr (cw : Char → Nat) (s : List Char) (max_width : Nat) (shape : Shape) :
    Option (List Char) :=
  match linesOf s with
  | [] => some s
  | l :: ls =>
    if (l.map cw).sum ≤ shape.width ∧ ∀ l2 ∈ ls, (l2.map cw).sum ≤ max_width then some s
    else none

/-- A concrete instance of the UAX#14 candidate sequence on the simple
texts used below: an Allowed opportunity after each run of spaces that is
followed by a regular character — rule LB7 forbids a break before a space,
so no opportunity arises inside a run, and LB6 forbids one before a line
feed — a Mandatory opportunity after every line feed, and the mandatory
end-of-text opportunity.  It under-approximates the real sequence
(opportunities after symbol characters such as a slash are omitted); on
every concrete text below the omitted candidates are never the selected
last-Allowed nor the first safe-break candidate, so the traces agree with
the real algorithm. -/
def simpleBreaksAux : Nat → List Char → List (Nat × BreakOpportunity)
  | _, [] => []
  | i, c :: rest =>
    (match rest with
     | [] => if c = '\n' then [(i + 1, BreakOpportunity.Mandatory)] else []
     | d :: _ =>
       if c = '\n' then [(i + 1, BreakOpportunity.Mandatory)]
       else if c = ' ' ∧ d ≠ ' ' ∧ d ≠ '\n' then [(i + 1, BreakOpportunity.Allowed)]
       else []) ++ simpleBreaksAux (i + 1) rest

/-- The candidate list of `simpleBreaksAux` together with the final
mandatory end-of-text opportunity, which already exists when the text ends
in a line feed (empty on empty input, which the engine never queries). -/
def simpleBreaks (t : List Char) : List (Nat × BreakOpportunity) :=
  if t = [] then []
  else if t.getLast? = some '\n' then simpleBreaksAux 0 t
  else simpleBreaksAux 0 t ++ [(t.length, BreakOpportunity.Mandatory)]

def simpleBreaksAux_pos (t : List Char) :
    ∀ i p, p ∈ simpleBreaksAux i t → i < p.1 := by
  induction t with
  | nil => intro i p h; simp [simpleBreaksAux] at h
  | cons c rest ih =>
    intro i p h
    simp only [simpleBreaksAux, List.mem_append] at h
    rcases h with h | h
    · cases rest with
      | nil => split at h <;> simp_all
      | cons d rs =>
        split at h
        · simp_all
        · split at h <;> simp_all
    · have := ih (i + 1) p h; omega

def simpleBreaks_pos (t : List Char) (p : Nat × BreakOpportunity)
    (h : p ∈ simpleBreaks t) : 0 < p.1 := by
  unfold simpleBreaks at h
  split at h
  · simp at h
  · rename_i ht
    split at h
    · have := simpleBreaksAux_pos t 0 p h; omega
    · rcases List.mem_append.mp h with h | h
      · have := simpleBreaksAux_pos t 0 p h; omega
      · simp at h
        subst h
        have : t.length ≠ 0 := fun hl => ht (List.eq_nil_of_length_eq_zero hl)
        simpa using Nat.pos_of_ne_zero this

/-- A concrete environment: every character one column wide, the hyphen as
punctuation dash, period and exclamation mark as other punctuation, the
space as space separator, `simpleBreaks` as candidate source and the
spec-modelled global width check as defensive pass. -/
def demoUni : UnicodeEnv where
  charWidth _ := 1
  isPd c := decide (c = '-')
  isPo c := decide (c = '.' ∨ c = '!')
  isZs c := decide (c = ' ')
  linebreaks := simpleBreaks
  wrapStr := specWrapStr (fun _ => 1)
  linebreaks_pos := fun t p h => simpleBreaks_pos t p h
  zs_width := fun _ _ => le_refl 1
  zs_whitespace := by intro c h; simp at h; subst h; decide
  newline_not_zs := by decide

/-- A second concrete environment whose candidate source places a single
Allowed opportunity at index 3 of any sufficiently long text; used to probe
the Scanner's filter at a position right after a backslash run. -/
def cexUni : UnicodeEnv where
  charWidth _ := 1
  isPd _ := false
  isPo _ := false
  isZs c := decide (c = ' ')
  linebreaks t := if 3 ≤ t.length then [(3, BreakOpportunity.Allowed)] else []
  wrapStr := specWrapStr (fun _ => 1)
  linebreaks_pos := by
    intro t p h
    by_cases h3 : 3 ≤ t.length
    · simp [h3] at h
      subst h
      simp
    · simp [h3] at h
  zs_width := fun _ _ => le_refl 1
  zs_whitespace := by intro c h; simp at h; subst h; decide
  newline_not_zs := by decide

/-- The break index described by the specification's priority order: the
position of the first Mandatory candidate the Scanner yields; otherwise the
position of the last Allowed candidate; otherwise the last qualifying
punctuation position; otherwise the whole remaining text. -/
def specChosenIndex (u : UnicodeEnv) (text : List Char) (max_graphemes : Nat)
    (trim_end : Bool) : Nat :=
  let bos := line_break_opportunities u text max_graphemes trim_end
  match bos.find? (fun p => decide (p.2 = BreakOpportunity.Mandatory)) with
  | some p => p.1
  | none =>
    match (bos.filter (fun p => decide (p.2 = BreakOpportunity.Allowed))).getLast? with
    | some p => p.1
    | none =>
      match (alternative_punctuation_breaks u text max_graphemes trim_end).getLast? with
      | some i => i
      | none => text.length

/-- The Scanner acceptance condition in the words of the specification,
except that the prefix may not end in any backslash character: the prefix
before the candidate ends neither in a backslash nor in a punctuation-dash
character, and its width is within the budget, or one past it with
`trim_end` set and a trailing trimmable space separator. -/
def scanner_accepts (u : UnicodeEnv) (text : List Char) (max_graphemes : Nat)
    (trim_end : Bool) (i : Nat) : Prop :=
  (text.take i).getLast? ≠ some '\\'
    ∧ (text.take i).getLast?.map u.isPd ≠ some true
    ∧ (unicode_str_width u (text.take i) ≤ max_graphemes
        ∨ (unicode_str_width u (text.take i) = max_graphemes + 1
            ∧ trim_end = true
            ∧ (text.take i).getLast?.map u.isZs = some true))

/-- The text ends in an unescaped backslash: its trailing run of
backslashes has odd length. -/
def oddTrailingBackslashes (l : List Char) : Prop :=
  (l.reverse.takeWhile (fun c => decide (c = '\\'))).length % 2 = 1

/-- The Scanner acceptance condition exactly as the claim states it, with
the backslash exclusion restricted to an unescaped trailing backslash. -/
def claim_accepts (u : UnicodeEnv) (text : List Char) (max_graphemes : Nat)
    (trim_end : Bool) (i : Nat) : Prop :=
  ¬ oddTrailingBackslashes (text.take i)
    ∧ (text.take i).getLast?.map u.isPd ≠ some true
    ∧ (unicode_str_width u (text.take i) ≤ max_graphemes
        ∨ (unicode_str_width u (text.take i) = max_graphemes + 1
            ∧ trim_end = true
            ∧ (text.take i).getLast?.map u.isZs = some true))

/-- The break index a splitter step actually consumes, in the words of the
amended URL-guard description: when the splitter's URL flag is set and a
safe break position past the first URL exists, the larger of it and the
naive index; otherwise the naive index. -/
def relocated_break_index (u : UnicodeEnv) (s : StringSplitter) (k : Nat) : Nat :=
  if s.contains_url then
    match safe_break_after_url u s.text with
    | some i => max k i
    | none => k
  else k

/-- The relocation target in the words of the amended claim: the first
UAX#14 opportunity at or past the first whitespace that follows the first
`"://"` marker, or the end of the text when no whitespace follows. -/
def specSafeBreak (u : UnicodeEnv) (s : List Char) : Option Nat :=
  if contains_url s = false then none
  else
    match findSub "://".toList s with
    | none => none
    | some b =>
      match (s.drop b).findIdx? (fun c => c.isWhitespace) with
      | some pos => ((u.linebreaks s).find? (fun p => decide (b + pos ≤ p.1))).map Prod.fst
      | none => some s.length

/-- One step of the splitter as a total state transformer (identity once
the text is exhausted), used to express termination as iteration. -/
def nextState (u : UnicodeEnv) (s : StringSplitter) : StringSplitter :=
  match StringSplitter.next u s with
  | none => s
  | some r => r.2

/-- The default quoted-string format of the source
(`StringFormat::new`), over a shape of width 4 with empty indentation. -/
def fmtD : StringFormat :=
  { opener := ['"'], closer := ['"'], line_start := [' '], line_end := ['\\'],
    shape := { width := 4, indent := [] }, trim_end := false, config := { max_width := 27 } }

/-- The same quoted-string format over a shape of width 15, giving the
first line a budget of 13 columns. -/
def fmtC : StringFormat :=
  { opener := ['"'], closer := ['"'], line_start := [' '], line_end := ['\\'],
    shape := { width := 15, indent := [] }, trim_end := false, config := { max_width := 27 } }

/-- The quoted-string format with `trim_end` set, over a shape of width 6
(a first-line budget of 4 columns). -/
def fmtT : StringFormat :=
  { opener := ['"'], closer := ['"'], line_start := [' '], line_end := ['\\'],
    shape := { width := 6, indent := [] }, trim_end := true, config := { max_width := 27 } }

/-- A degenerate format whose shape cannot fit a single grapheme. -/
def fmtZero : StringFormat :=
  { opener := ['"'], closer := ['"'], line_start := [' '], line_end := ['\\'],
    shape := { width := 0, indent := [] }, trim_end := false, config := { max_width := 27 } }

/-- A concrete splitter state whose next step consumes a slice ending in a
newline with trailing spaces before it. -/
def s8 : StringSplitter :=
  { text := "ab \ncd".toList, offset := 0, max_graphemes := 20,
    max_graphemes_with_indent := 20, max_graphemes_without_indent := 26,
    newline_max_graphemes := 27, is_bareline_ok := true, trim_end := true,
    contains_url := false }

/-- A concrete splitter state whose next step consumes the whole remaining
text, which ends in whitespace followed by a newline. -/
def s10 : StringSplitter :=
  { text := "ab \n".toList, offset := 0, max_graphemes := 27,
    max_graphemes_with_indent := 27, max_graphemes_without_indent := 26,
    newline_max_graphemes := 27, is_bareline_ok := true, trim_end := true,
    contains_url := false }

/-- A concrete splitter state over a text containing a URL, with a budget
that makes the naive break fall before the URL. -/
def s3c : StringSplitter :=
  { text := "aa bb http://e.o zz".toList, offset := 0, max_graphemes := 3,
    max_graphemes_with_indent := 3, max_graphemes_without_indent := 26,
    newline_max_graphemes := 27, is_bareline_ok := true, trim_end := false,
    contains_url := true }

/-- A small URL-free splitter state used to instantiate general step
theorems. -/
def s6w : StringSplitter :=
  { text := "ab".toList, offset := 0, max_graphemes := 5,
    max_graphemes_with_indent := 5, max_graphemes_without_indent := 26,
    newline_max_graphemes := 27, is_bareline_ok := true, trim_end := false,
    contains_url := false }

/-- A splitter state over several words, used to instantiate the width
bound on a regular soft break. -/
def s4w : StringSplitter :=
  { text := "a b cc".toList, offset := 0, max_graphemes := 2,
    max_graphemes_with_indent := 2, max_graphemes_without_indent := 26,
    newline_max_graphemes := 27, is_bareline_ok := true, trim_end := false,
    contains_url := false }

theorem unicode_str_width_reverse (u : UnicodeEnv) (l : List Char) :
    unicode_str_width u l.reverse = unicode_str_width u l := by
  unfold unicode_str_width
  rw [List.map_reverse, List.sum_reverse]

theorem unicode_str_width_cons (u : UnicodeEnv) (c : Char) (l : List Char) :
    unicode_str_width u (c :: l) = u.charWidth c + unicode_str_width u l := by
  simp [unicode_str_width]

theorem sum_map_dropWhile_le (u : UnicodeEnv) (p : Char → Bool) (l : List Char) :
    unicode_str_width u (l.dropWhile p) ≤ unicode_str_width u l := by
  induction l with
  | nil => simp [List.dropWhile]
  | cons c rest ih =>
    rw [List.dropWhile_cons]
    split
    · exact le_trans ih (by rw [unicode_str_width_cons]; omega)
    · exact le_refl _

theorem trimEnd_width_le (u : UnicodeEnv) (l : List Char) :
    unicode_str_width u (trimEnd l) ≤ unicode_str_width u l := by
  unfold trimEnd
  calc unicode_str_width u (l.reverse.dropWhile Char.isWhitespace).reverse
      = unicode_str_width u (l.reverse.dropWhile Char.isWhitespace) :=
        unicode_str_width_reverse u _
    _ ≤ unicode_str_width u l.reverse := sum_map_dropWhile_le u _ _
    _ = unicode_str_width u l := unicode_str_width_reverse u l

theorem trimEnd_width_drop (u : UnicodeEnv) (l : List Char) (c : Char)
    (h : l.getLast? = some c) (hw : c.isWhitespace = true) :
    unicode_str_width u (trimEnd l) + u.charWidth c ≤ unicode_str_width u l := by
  have hrev : l.reverse.head? = some c := by rw [List.head?_reverse]; exact h
  cases hr : l.reverse with
  | nil => rw [hr] at hrev; simp at hrev
  | cons a t =>
    have ha : a = c := by rw [hr] at hrev; simpa using hrev
    subst ha
    have h1 : unicode_str_width u (trimEnd l) = unicode_str_width u (t.dropWhile Char.isWhitespace) := by
      unfold trimEnd
      rw [hr, List.dropWhile_cons, if_pos hw, unicode_str_width_reverse]
    have h2 : unicode_str_width u l = u.charWidth a + unicode_str_width u t := by
      rw [← unicode_str_width_reverse u l, hr, unicode_str_width_cons]
    have h3 := sum_map_dropWhile_le u Char.isWhitespace t
    omega

theorem lboKeep_iff (u : UnicodeEnv) (text : List Char) (max_graphemes : Nat)
    (trim_end : Bool) (i : Nat) :
    lboKeep u text max_graphemes trim_end i = true ↔
      scanner_accepts u text max_graphemes trim_end i := by
  simp only [lboKeep, scanner_accepts]
  split
  · rename_i hbad
    simp only [Bool.false_eq_true, false_iff]
    intro hacc
    rcases hbad with hb | hd
    · exact hacc.1 hb
    · exact hacc.2.1 hd
  · rename_i hgood
    push_neg at hgood
    split
    · rename_i hle
      simp only [true_iff]
      exact ⟨hgood.1, hgood.2, Or.inl hle⟩
    · rename_i hgt
      split
      · rename_i heq
        simp only [Bool.and_eq_true, decide_eq_true_eq]
        constructor
        · rintro ⟨hte, hzs⟩
          exact ⟨hgood.1, hgood.2, Or.inr ⟨heq, hte, hzs⟩⟩
        · rintro ⟨-, -, h | h⟩
          · exact absurd h hgt
          · exact ⟨h.2.1, h.2.2⟩
      · rename_i hne
        simp only [Bool.false_eq_true, false_iff]
        rintro ⟨-, -, h | h⟩
        · exact hgt h
        · exact hne h.1

theorem mem_lbo_iff (u : UnicodeEnv) (text : List Char) (max_graphemes : Nat)
    (trim_end : Bool) (p : Nat × BreakOpportunity) :
    p ∈ line_break_opportunities u text max_graphemes trim_end ↔
      p ∈ u.linebreaks text ∧ lboKeep u text max_graphemes trim_end p.1 = true := by
  unfold line_break_opportunities
  exact List.mem_filter

theorem mem_apb (u : UnicodeEnv) (text : List Char) (max_graphemes : Nat)
    (trim_end : Bool) (i : Nat)
    (h : i ∈ alternative_punctuation_breaks u text max_graphemes trim_end) :
    0 < i ∧ unicode_str_width u (text.take i) ≤ max_graphemes := by
  unfold alternative_punctuation_breaks at h
  rcases List.mem_filterMap.mp h with ⟨w, -, hw⟩
  split at hw
  · exact absurd hw (by simp)
  · split at hw
    · rename_i hle
      simp only [Option.some.injEq] at hw
      subst hw
      exact ⟨Nat.succ_pos _, hle⟩
    · exact absurd hw (by simp)

theorem scanBreaks_mand :
    ∀ (l : List (Nat × BreakOpportunity)) (acc : Nat) (p : Nat × BreakOpportunity),
      l.find? (fun q => decide (q.2 = BreakOpportunity.Mandatory)) = some p →
      scanBreaks l acc = Sum.inl p.1 := by
  intro l
  induction l with
  | nil => intro acc p h; simp at h
  | cons q rest ih =>
    intro acc p h
    obtain ⟨i, k⟩ := q
    cases k with
    | Mandatory =>
      rw [List.find?_cons_of_pos _ (by simp)] at h
      simp only [Option.some.injEq] at h
      subst h
      rfl
    | Allowed =>
      rw [List.find?_cons_of_neg _ (by simp)] at h
      exact ih i p h

theorem scanBreaks_no_mand :
    ∀ (l : List (Nat × BreakOpportunity)) (acc : Nat),
      l.find? (fun q => decide (q.2 = BreakOpportunity.Mandatory)) = none →
      scanBreaks l acc = Sum.inr ((l.getLast?.map Prod.fst).getD acc) := by
  intro l
  induction l with
  | nil => intro acc _; simp [scanBreaks]
  | cons q rest ih =>
    intro acc h
    obtain ⟨i, k⟩ := q
    cases k with
    | Mandatory =>
      rw [List.find?_cons_of_pos _ (by simp)] at h
      simp at h
    | Allowed =>
      rw [List.find?_cons_of_neg _ (by simp)] at h
      have hrec : scanBreaks ((i, BreakOpportunity.Allowed) :: rest) acc = scanBreaks rest i := rfl
      rw [hrec, ih i h]
      cases hr : rest with
      | nil => simp [hr]
      | cons r rs =>
        subst hr
        rw [List.getLast?_cons_cons]
        cases hlast : (r :: rs).getLast? with
        | none => exact absurd (List.getLast?_eq_none_iff.mp hlast) (by simp)
        | some v => simp

theorem next_eq_spec (u : UnicodeEnv) (s : StringSplitter) (h : s.text ≠ []) :
    StringSplitter.next u s =
      some (StringSplitter.update u s (specChosenIndex u s.text s.max_graphemes s.trim_end)) := by
  unfold StringSplitter.next specChosenIndex
  rw [if_neg h]
  cases hf : (line_break_opportunities u s.text s.max_graphemes s.trim_end).find?
      (fun p => decide (p.2 = BreakOpportunity.Mandatory)) with
  | some p =>
    rw [scanBreaks_mand _ 0 p hf]
    simp only [hf]
  | none =>
    rw [scanBreaks_no_mand _ 0 hf]
    simp only [hf]
    have hall : ∀ q ∈ line_break_opportunities u s.text s.max_graphemes s.trim_end,
        q.2 = BreakOpportunity.Allowed := by
      intro q hq
      have hq2 := List.find?_eq_none.mp hf q hq
      simp only [decide_eq_true_eq] at hq2
      cases hk : q.2 with
      | Mandatory => exact absurd hk hq2
      | Allowed => rfl
    have hfilter :
        (line_break_opportunities u s.text s.max_graphemes s.trim_end).filter
            (fun p => decide (p.2 = BreakOpportunity.Allowed)) =
          line_break_opportunities u s.text s.max_graphemes s.trim_end :=
      List.filter_eq_self.mpr fun q hq => by simp [hall q hq]
    rw [hfilter]
    cases hl : (line_break_opportunities u s.text s.max_graphemes s.trim_end).getLast? with
    | none =>
      have hnil := List.getLast?_eq_none_iff.mp hl
      simp only [hl, Option.map_none', Option.getD_none, ne_eq, not_true_eq_false,
        if_false]
      cases hp : (alternative_punctuation_breaks u s.text s.max_graphemes s.trim_end).getLast? with
      | some i => simp only [hp]
      | none => simp only [hp]
    | some q =>
      have hmem : q ∈ line_break_opportunities u s.text s.max_graphemes s.trim_end :=
        List.mem_of_mem_getLast? hl
      have hmem' : q ∈ u.linebreaks s.text := ((mem_lbo_iff u _ _ _ q).mp hmem).1
      have hpos := u.linebreaks_pos s.text q hmem'
      simp only [hl, Option.map_some', Option.getD_some]
      rw [if_pos (by omega)]

theorem specChosenIndex_cases (u : UnicodeEnv) (t : List Char) (m : Nat) (te : Bool) :
    (∃ k, (specChosenIndex u t m te, k) ∈ line_break_opportunities u t m te)
      ∨ specChosenIndex u t m te ∈ alternative_punctuation_breaks u t m te
      ∨ specChosenIndex u t m te = t.length := by
  unfold specChosenIndex
  cases hf : (line_break_opportunities u t m te).find?
      (fun p => decide (p.2 = BreakOpportunity.Mandatory)) with
  | some p =>
    simp only [hf]
    exact Or.inl ⟨p.2, by rw [Prod.mk.eta]; exact List.mem_of_find?_eq_some hf⟩
  | none =>
    simp only [hf]
    cases hl : ((line_break_opportunities u t m te).filter
        (fun p => decide (p.2 = BreakOpportunity.Allowed))).getLast? with
    | some p =>
      simp only [hl]
      exact Or.inl ⟨p.2, by
        rw [Prod.mk.eta]
        exact (List.mem_filter.mp (List.mem_of_mem_getLast? hl)).1⟩
    | none =>
      simp only [hl]
      cases hp : (alternative_punctuation_breaks u t m te).getLast? with
      | some i =>
        simp only [hp]
        exact Or.inr (Or.inl (List.mem_of_mem_getLast? hp))
      | none =>
        simp only [hp]
        exact Or.inr (Or.inr (by trivial))

theorem specChosenIndex_pos (u : UnicodeEnv) (t : List Char) (m : Nat) (te : Bool)
    (h : t ≠ []) : 0 < specChosenIndex u t m te := by
  rcases specChosenIndex_cases u t m te with ⟨k, hmem⟩ | hp | hlen
  · exact u.linebreaks_pos t _ ((mem_lbo_iff u t m te _).mp hmem).1
  · exact (mem_apb u t m te _ hp).1
  · rw [hlen]; exact List.length_pos.mpr h

theorem urlAdjust_fst (u : UnicodeEnv) (s : StringSplitter) (k : Nat) :
    (urlAdjust u s k).1 = relocated_break_index u s k := by
  unfold urlAdjust relocated_break_index
  cases hc : s.contains_url with
  | false => simp
  | true =>
    simp only [if_true]
    cases hsb : safe_break_after_url u s.text with
    | none => rfl
    | some i =>
      simp only []
      rcases Nat.lt_or_ge k i with hlt | hge
      · rw [if_pos hlt, Nat.max_eq_right (le_of_lt hlt)]
      · rw [if_neg (Nat.not_lt.mpr hge), Nat.max_eq_left hge]

theorem urlAdjust_snd_eq (u : UnicodeEnv) (s : StringSplitter) (k : Nat) :
    (urlAdjust u s k).2 = { s with contains_url := (urlAdjust u s k).2.contains_url } := by
  unfold urlAdjust
  cases hc : s.contains_url with
  | false => rfl
  | true =>
    simp only [if_true]
    cases hsb : safe_break_after_url u s.text with
    | none => rfl
    | some i => rfl

theorem classifySlice_snd_text (s : StringSplitter) (j : Nat) :
    (classifySlice s j).2.text = s.text.drop j := by
  simp only [classifySlice, nextBudgetAfterNewline]
  split
  · rfl
  · split
    · rfl
    · split
      · rfl
      · rfl

theorem classifySlice_snd_offset (s : StringSplitter) (j : Nat) :
    (classifySlice s j).2.offset = s.offset + j := by
  simp only [classifySlice, nextBudgetAfterNewline]
  split
  · rfl
  · split
    · rfl
    · split
      · rfl
      · rfl

theorem update_snd_text (u : UnicodeEnv) (s : StringSplitter) (k : Nat) :
    (StringSplitter.update u s k).2.text = s.text.drop (relocated_break_index u s k) := by
  unfold StringSplitter.update
  rw [urlAdjust_snd_eq, urlAdjust_fst, classifySlice_snd_text]

theorem update_snd_offset (u : UnicodeEnv) (s : StringSplitter) (k : Nat) :
    (StringSplitter.update u s k).2.offset = s.offset + relocated_break_index u s k := by
  unfold StringSplitter.update
  rw [urlAdjust_snd_eq, urlAdjust_fst, classifySlice_snd_offset]

theorem relocated_ge (u : UnicodeEnv) (s : StringSplitter) (k : Nat) :
    k ≤ relocated_break_index u s k := by
  unfold relocated_break_index
  cases hc : s.contains_url with
  | false => simp
  | true =>
    simp only [if_true]
    cases hsb : safe_break_after_url u s.text with
    | none => exact le_refl k
    | some i => exact Nat.le_max_left k i

theorem reloc_no_url (u : UnicodeEnv) (s : StringSplitter) (k : Nat)
    (h : s.contains_url = false) : relocated_break_index u s k = k := by
  unfold relocated_break_index
  simp [h]

theorem reloc_ne_iff (u : UnicodeEnv) (s : StringSplitter) (k : Nat) :
    relocated_break_index u s k ≠ k ↔
      s.contains_url = true ∧ ∃ i, safe_break_after_url u s.text = some i ∧ k < i := by
  unfold relocated_break_index
  cases hc : s.contains_url with
  | false => simp
  | true =>
    simp only [if_true, true_and]
    cases hsb : safe_break_after_url u s.text with
    | none => simp
    | some i =>
      simp only [Option.some.injEq]
      constructor
      · intro hne
        refine ⟨i, rfl, ?_⟩
        rcases Nat.lt_or_ge k i with hlt | hge
        · exact hlt
        · exact absurd (Nat.max_eq_left hge) hne
      · rintro ⟨i', rfl, hlt⟩
        rw [Nat.max_eq_right (le_of_lt hlt)]
        omega

theorem next_progress (u : UnicodeEnv) (s : StringSplitter) (st : SnippetState)
    (s' : StringSplitter) (h : StringSplitter.next u s = some (st, s')) :
    s'.text.length < s.text.length ∧ s.offset < s'.offset := by
  have htext : s.text ≠ [] := by
    intro hnil
    unfold StringSplitter.next at h
    rw [if_pos hnil] at h
    exact Option.noConfusion h
  have hspec := next_eq_spec u s htext
  rw [hspec] at h
  have heq : StringSplitter.update u s (specChosenIndex u s.text s.max_graphemes s.trim_end)
      = (st, s') := Option.some.inj h
  have hpos := specChosenIndex_pos u s.text s.max_graphemes s.trim_end htext
  have hge := relocated_ge u s (specChosenIndex u s.text s.max_graphemes s.trim_end)
  have h1 : s'.text = s.text.drop
      (relocated_break_index u s (specChosenIndex u s.text s.max_graphemes s.trim_end)) := by
    rw [← update_snd_text u s, heq]
  have h2 : s'.offset = s.offset +
      relocated_break_index u s (specChosenIndex u s.text s.max_graphemes s.trim_end) := by
    rw [← update_snd_offset u s, heq]
  have hlen := List.length_pos.mpr htext
  constructor
  · rw [h1, List.length_drop]
    omega
  · rw [h2]
    omega

theorem next_isSome (u : UnicodeEnv) (s : StringSplitter) (h : s.text ≠ []) :
    ∃ r, StringSplitter.next u s = some r :=
  ⟨_, next_eq_spec u s h⟩

theorem nextState_of_empty (u : UnicodeEnv) (s : StringSplitter) (h : s.text = []) :
    nextState u s = s := by
  unfold nextState
  rw [show StringSplitter.next u s = none from by
    unfold StringSplitter.next; rw [if_pos h]]

theorem iterate_nextState_empty (u : UnicodeEnv) :
    ∀ (n : Nat) (s : StringSplitter), s.text = [] → ((nextState u)^[n] s).text = [] := by
  intro n
  induction n with
  | zero => intro s h; simpa using h
  | succ m ih =>
    intro s h
    rw [Function.iterate_succ_apply, nextState_of_empty u s h]
    exact ih s h

theorem splitter_exhausts (u : UnicodeEnv) :
    ∀ (n : Nat) (s : StringSplitter), s.text.length ≤ n → ((nextState u)^[n] s).text = [] := by
  intro n
  induction n with
  | zero =>
    intro s h
    simpa using List.eq_nil_of_length_eq_zero (Nat.le_zero.mp h)
  | succ m ih =>
    intro s h
    by_cases he : s.text = []
    · exact iterate_nextState_empty u (m + 1) s he
    · obtain ⟨⟨st, s'⟩, hr⟩ := next_isSome u s he
      have hp := next_progress u s st s' hr
      rw [Function.iterate_succ_apply]
      have hns : nextState u s = s' := by unfold nextState; rw [hr]
      rw [hns]
      exact ih s' (by omega)

theorem head?_filter {α : Type} (p : α → Bool) (l : List α) :
    (l.filter p).head? = l.find? p := by
  induction l with
  | nil => rfl
  | cons a t ih =>
    by_cases hpa : p a = true
    · rw [List.filter_cons_of_pos hpa, List.find?_cons_of_pos _ hpa]
      rfl
    · rw [List.filter_cons_of_neg (by simpa using hpa), List.find?_cons_of_neg _ (by simpa using hpa)]
      exact ih

theorem safe_break_eq_spec (u : UnicodeEnv) (s : List Char) :
    safe_break_after_url u s = specSafeBreak u s := by
  unfold safe_break_after_url specSafeBreak
  split
  · rfl
  · cases hb : findSub "://".toList s with
    | none => rfl
    | some b =>
      simp only []
      cases hw : (s.drop b).findIdx? (fun c => c.isWhitespace) with
      | none => rfl
      | some pos =>
        simp only []
        rw [head?_filter]

theorem update_eq_classify (u : UnicodeEnv) (s : StringSplitter) (k : Nat) :
    StringSplitter.update u s k =
      classifySlice { s with contains_url := (urlAdjust u s k).2.contains_url }
        (relocated_break_index u s k) := by
  unfold StringSplitter.update
  rw [urlAdjust_fst]
  conv_lhs => rw [urlAdjust_snd_eq]

theorem classifySlice_fst_endOfInput (s1 : StringSplitter) (j : Nat) (t : List Char)
    (h : (classifySlice s1 j).1 = SnippetState.EndOfInput t) :
    s1.text.drop j = []
      ∧ t = (if s1.trim_end && !(decide ((s1.text.take j).getLast? = some '\n')) then
          trimEnd (s1.text.take j) else s1.text.take j) := by
  simp only [classifySlice, nextBudgetAfterNewline] at h
  split at h
  · rename_i hrem
    refine ⟨hrem, ?_⟩
    have := h.symm
    injection this
  · split at h
    · simp at h
    · split at h
      · simp at h
      · simp at h

theorem from_format_none_iff (text : List Char) (fmt : StringFormat) (n : Nat) :
    StringSplitter.from_format text fmt n = none ↔
      (fmt.shape.width < fmt.opener.length + fmt.line_end.length + 1
        ∨ fmt.config.max_width < fmt.line_end.length) := by
  unfold StringSplitter.from_format StringFormat.max_width_with_indent
    StringFormat.max_width_without_indent
  split_ifs with h1 h2 <;> simp <;> omega

/-- C1: on every splitter step with non-empty remaining text, the break
index is chosen by priority — the first Mandatory candidate of the Scanner;
otherwise the last Allowed candidate; otherwise the last qualifying
punctuation position; otherwise the whole remaining text is consumed, as a
normal `some` outcome. -/
theorem C1_step_priority (u : UnicodeEnv) (s : StringSplitter) (h : s.text ≠ []) :
    StringSplitter.next u s =
      some (StringSplitter.update u s
        (specChosenIndex u s.text s.max_graphemes s.trim_end)) :=
  next_eq_spec u s h

theorem C1_step_priority_witness :
    StringSplitter.next demoUni s6w =
      some (StringSplitter.update demoUni s6w
        (specChosenIndex demoUni s6w.text s6w.max_graphemes s6w.trim_end)) :=
  C1_step_priority demoUni s6w (by decide)

/-- C2 (amended): a candidate of the line-break algorithm survives the
Scanner's filter exactly when the prefix before it ends in no backslash at
all (escaped or not) and in no punctuation-dash character, and its width is
within the budget or one past it with `trim_end` set and a trailing
trimmable space separator. -/
theorem C2_scanner_filter (u : UnicodeEnv) (text : List Char) (m : Nat) (te : Bool)
    (i : Nat) (k : BreakOpportunity) (hmem : (i, k) ∈ u.linebreaks text) :
    (i, k) ∈ line_break_opportunities u text m te ↔ scanner_accepts u text m te i := by
  rw [mem_lbo_iff]
  constructor
  · intro h
    exact (lboKeep_iff u text m te i).mp h.2
  · intro h
    exact ⟨hmem, (lboKeep_iff u text m te i).mpr h⟩

theorem C2_scanner_filter_witness :
    (3, BreakOpportunity.Allowed) ∈ line_break_opportunities demoUni "ab cd".toList 5 false := by
  have h := C2_scanner_filter demoUni "ab cd".toList 5 false 3 BreakOpportunity.Allowed (by decide)
  exact h.mpr ⟨by decide, by decide, Or.inl (by decide)⟩

/-- C2 counterexample: the prefix `"a\\\\"` ends in an escaped backslash —
not an unescaped one — so the claim as stated admits the candidate at
index 3, yet the code's filter rejects it (`ends_with('\\')` is true for
escaped backslashes as well). -/
theorem C2_counterexample :
    (3, BreakOpportunity.Allowed) ∈ cexUni.linebreaks "a\\\\ b".toList
      ∧ claim_accepts cexUni "a\\\\ b".toList 10 false 3
      ∧ (3, BreakOpportunity.Allowed) ∉ line_break_opportunities cexUni "a\\\\ b".toList 10 false := by
  refine ⟨by decide, ⟨?_, by decide, Or.inl (by decide)⟩, by decide⟩
  unfold oddTrailingBackslashes
  decide

/-- C3 (amended): the splitter consumes up to the relocated index — the
maximum of the naive index and the safe break position — whenever the URL
flag is set and a safe break position exists; the index changes exactly
when that position exceeds the naive one (whether or not the naive break
falls inside a URL), and the safe break position is the first line-break
opportunity at or past the first whitespace after the first `"://"`
marker, or the end of the remaining text when no whitespace follows. -/
theorem C3_url_guard (u : UnicodeEnv) (s : StringSplitter) (k : Nat) :
    ((StringSplitter.update u s k).2.text = s.text.drop (relocated_break_index u s k)
      ∧ (StringSplitter.update u s k).2.offset = s.offset + relocated_break_index u s k)
    ∧ (relocated_break_index u s k ≠ k ↔
        s.contains_url = true ∧ ∃ i, safe_break_after_url u s.text = some i ∧ k < i)
    ∧ safe_break_after_url u s.text = specSafeBreak u s.text :=
  ⟨⟨update_snd_text u s k, update_snd_offset u s k⟩, reloc_ne_iff u s k,
    safe_break_eq_spec u s.text⟩

theorem C3_url_guard_witness :
    (StringSplitter.update demoUni s3c 3).2.text
      = s3c.text.drop (relocated_break_index demoUni s3c 3) :=
  ((C3_url_guard demoUni s3c 3).1).1

/-- C3 counterexample: on `s3c` the naive chosen index is 3, strictly
before the URL substring starting at index 6, yet the step relocates the
break and consumes 17 characters — a break that does not fall inside a
URL is not left where it is. -/
theorem C3_counterexample :
    specChosenIndex demoUni s3c.text s3c.max_graphemes s3c.trim_end = 3
      ∧ findSub "http://".toList s3c.text = some 6
      ∧ 3 < 6
      ∧ (StringSplitter.next demoUni s3c).map (fun r => r.2.offset) = some 17 := by
  decide

/-- C5: `rewrite_string` yields `none` exactly when a per-line budget
computation underflows — `shape.width < len(opener) + len(line_end) + 1`
or `max_width < len(line_end)` — or the final defensive pass fails; in
every other case it yields `some`. -/
theorem C5_none_iff (u : UnicodeEnv) (orig : List Char) (fmt : StringFormat) (n : Nat) :
    rewrite_string u orig fmt n = none ↔
      (fmt.shape.width < fmt.opener.length + fmt.line_end.length + 1
        ∨ fmt.config.max_width < fmt.line_end.length
        ∨ u.wrapStr (assembleResult u orig fmt n) fmt.config.max_width fmt.shape = none) := by
  unfold rewrite_string assembleResult
  cases hff : StringSplitter.from_format (stripLineBreaks orig) fmt n with
  | none =>
    have hAB := (from_format_none_iff (stripLineBreaks orig) fmt n).mp hff
    simp only [hff]
    constructor
    · intro _
      rcases hAB with h | h
      · exact Or.inl h
      · exact Or.inr (Or.inl h)
    · intro _
      trivial
  | some sp =>
    have hAB : ¬ (fmt.shape.width < fmt.opener.length + fmt.line_end.length + 1
        ∨ fmt.config.max_width < fmt.line_end.length) := by
      rw [← from_format_none_iff (stripLineBreaks orig) fmt n, hff]
      simp
    simp only [hff]
    constructor
    · intro h
      exact Or.inr (Or.inr h)
    · rintro (h | h | h)
      · exact absurd (Or.inl h) hAB
      · exact absurd (Or.inr h) hAB
      · exact h

theorem C5_none_iff_witness :
    rewrite_string demoUni ['a'] fmtZero 27 = none :=
  (C5_none_iff demoUni ['a'] fmtZero 27).mpr (Or.inl (by decide))

/-- C6: every splitter step on non-empty text strictly advances the offset
and strictly shrinks the remaining text, and iterating the step
`length text` times always reaches the exhausted state. -/
theorem C6_termination (u : UnicodeEnv) (s : StringSplitter) :
    (∀ st s', StringSplitter.next u s = some (st, s') →
        s.offset < s'.offset ∧ s'.text.length < s.text.length)
    ∧ ((nextState u)^[s.text.length] s).text = [] := by
  constructor
  · intro st s' h
    have hp := next_progress u s st s' h
    exact ⟨hp.2, hp.1⟩
  · exact splitter_exhausts u s.text.length s (le_refl _)

theorem C6_termination_witness :
    (s6w.offset < (⟨[], 2, 5, 5, 26, 27, true, false, false⟩ : StringSplitter).offset
      ∧ (⟨[], 2, 5, 5, 26, 27, true, false, false⟩ : StringSplitter).text.length
          < s6w.text.length)
    ∧ ((nextState demoUni)^[s6w.text.length] s6w).text = [] :=
  ⟨(C6_termination demoUni s6w).1 (SnippetState.EndOfInput "ab".toList)
      ⟨[], 2, 5, 5, 26, 27, true, false, false⟩ (by decide),
    (C6_termination demoUni s6w).2⟩

/-- C10: when a splitter step consumes the entire remaining text and that
text ends with a newline, nothing is trimmed — the `EndOfInput` snippet
carries the text verbatim even with `trim_end` set — and, unless the
snippet is a lone newline, the driver appends it verbatim to the output
buffer. -/
theorem C10_end_untrimmed (u : UnicodeEnv) (s : StringSplitter) (t : List Char)
    (s' : StringSplitter)
    (hn : StringSplitter.next u s = some (SnippetState.EndOfInput t, s'))
    (hnl : s.text.getLast? = some '\n') :
    t = s.text
    ∧ ∀ (fmt : StringFormat) (bare : Bool) (acc : List Char),
        t ≠ ['\n'] → emitSnippet fmt bare acc (SnippetState.EndOfInput t) = acc ++ t := by
  have htext : s.text ≠ [] := by
    intro hnil
    unfold StringSplitter.next at hn
    rw [if_pos hnil] at hn
    exact Option.noConfusion hn
  have hspec := next_eq_spec u s htext
  rw [hspec] at hn
  have heq := Option.some.inj hn
  rw [update_eq_classify] at heq
  have hfst : (classifySlice
      { s with contains_url :=
          (urlAdjust u s (specChosenIndex u s.text s.max_graphemes s.trim_end)).2.contains_url }
      (relocated_break_index u s (specChosenIndex u s.text s.max_graphemes s.trim_end))).1
      = SnippetState.EndOfInput t := by rw [heq]
  have hchar := classifySlice_fst_endOfInput _ _ t hfst
  have hdrop : s.text.drop
      (relocated_break_index u s (specChosenIndex u s.text s.max_graphemes s.trim_end)) = [] :=
    hchar.1
  have hlen : s.text.length ≤
      relocated_break_index u s (specChosenIndex u s.text s.max_graphemes s.trim_end) := by
    rw [← List.drop_eq_nil_iff]
    exact hdrop
  have htake : s.text.take
      (relocated_break_index u s (specChosenIndex u s.text s.max_graphemes s.trim_end))
      = s.text := List.take_of_length_le hlen
  have ht : t = s.text := by
    have h2 := hchar.2
    rw [htake] at h2
    rw [h2, hnl]
    simp
  refine ⟨ht, ?_⟩
  intro fmt bare acc hne
  simp only [emitSnippet]
  rw [if_neg hne]

theorem C10_end_untrimmed_witness :
    "ab \n".toList = s10.text
    ∧ emitSnippet fmtD true ['x'] (SnippetState.EndOfInput "ab \n".toList)
        = ['x'] ++ "ab \n".toList := by
  have h := C10_end_untrimmed demoUni s10 "ab \n".toList
    ⟨[], 4, 27, 27, 26, 27, true, true, false⟩ (by decide) (by decide)
  exact ⟨h.1, h.2 fmtD true ['x'] (by decide)⟩

/-- C8 (amended): a splitter step with `trim_end` set whose consumed
slice — the prefix up to the possibly URL-relocated index — ends in a
newline and whose remainder is non-empty yields a
`RemovedSignificantLineFeed` carrying the consumed slice with ALL trailing
whitespace — the newline included — trimmed away; the newline is
re-appended only by the rewrite driver, which emits the carried text
followed by exactly one newline. -/
theorem C8_removed_newline (u : UnicodeEnv) (s : StringSplitter) (j : Nat)
    (htr : s.trim_end = true)
    (hnl : (s.text.take (relocated_break_index u s j)).getLast? = some '\n')
    (hrem : s.text.drop (relocated_break_index u s j) ≠ []) :
    (StringSplitter.update u s j).1
        = SnippetState.RemovedSignificantLineFeed
            (trimEnd (s.text.take (relocated_break_index u s j)))
            (s.offset + relocated_break_index u s j)
    ∧ ∀ (fmt : StringFormat) (bare : Bool) (acc t : List Char) (o : Nat), t ≠ [] →
        emitSnippet fmt bare acc (SnippetState.RemovedSignificantLineFeed t o)
          = acc ++ t ++ '\n' ::
              (if bare then [] else indent_without_newline fmt ++ fmt.line_start) := by
  constructor
  · rw [update_eq_classify]
    simp only [classifySlice, nextBudgetAfterNewline]
    rw [if_neg hrem]
    simp only [htr, hnl]
    simp
  · intro fmt bare acc t o ht
    simp only [emitSnippet]
    rw [if_neg ht]
    simp [List.append_assoc]

theorem C8_removed_newline_witness :
    (StringSplitter.update demoUni s8 4).1
      = SnippetState.RemovedSignificantLineFeed
          (trimEnd (s8.text.take (relocated_break_index demoUni s8 4)))
          (s8.offset + relocated_break_index demoUni s8 4) :=
  (C8_removed_newline demoUni s8 4 (by decide) (by decide) (by decide)).1

/-- C8 counterexample: on `s8` the step consumes `"ab \n"` and yields a
`RemovedSignificantLineFeed` carrying `"ab"`, not the claimed
`"ab\n"` (the consumed slice trimmed with the newline re-appended,
which is exactly `trim_end_but_line_feed` of the slice). -/
theorem C8_counterexample :
    (StringSplitter.next demoUni s8).map Prod.fst
        = some (SnippetState.RemovedSignificantLineFeed "ab".toList 4)
      ∧ trim_end_but_line_feed (s8.text.take 4) true = "ab\n".toList
      ∧ SnippetState.RemovedSignificantLineFeed "ab".toList 4
          ≠ SnippetState.RemovedSignificantLineFeed (trim_end_but_line_feed (s8.text.take 4) true) 4 := by
  decide

theorem countBackslashes_replicate (k : Nat) (d : Char) (t : List Char) (hd : d ≠ '\\') :
    countBackslashes (List.replicate k '\\' ++ d :: t) = (k, d :: t) := by
  induction k with
  | zero =>
    simp only [List.replicate, List.nil_append]
    unfold countBackslashes
    rw [if_neg hd]
  | succ m ih =>
    rw [List.replicate_succ, List.cons_append]
    unfold countBackslashes
    rw [if_pos rfl]
    simp only [ih]

theorem countBackslashes_len : ∀ l : List Char, (countBackslashes l).2.length ≤ l.length := by
  intro l
  induction l with
  | nil => simp [countBackslashes]
  | cons c rest ih =>
    unfold countBackslashes
    by_cases hc : c = '\\'
    · rw [if_pos hc]
      simpa using Nat.le_succ_of_le ih
    · rw [if_neg hc]

theorem dropAsciiSpaces_len : ∀ l : List Char, (dropAsciiSpaces l).length ≤ l.length := by
  intro l
  induction l with
  | nil => simp [dropAsciiSpaces]
  | cons c rest ih =>
    unfold dropAsciiSpaces
    split
    · exact Nat.le_succ_of_le ih
    · exact le_refl _

theorem stripAux_fuel_irrel :
    ∀ (f1 f2 : Nat) (l : List Char), l.length ≤ f1 → l.length ≤ f2 →
      stripLineBreaksAux f1 l = stripLineBreaksAux f2 l := by
  intro f1
  induction f1 with
  | zero =>
    intro f2 l h1 _
    have hl : l = [] := List.eq_nil_of_length_eq_zero (Nat.le_zero.mp h1)
    subst hl
    cases f2 <;> rfl
  | succ m ih =>
    intro f2 l h1 h2
    cases l with
    | nil => cases f2 <;> rfl
    | cons c rest =>
      cases f2 with
      | zero => simp at h2
      | succ m2 =>
        have hr1 : rest.length ≤ m := by simpa using h1
        have hr2 : rest.length ≤ m2 := by simpa using h2
        simp only [stripLineBreaksAux]
        by_cases hc : c = '\\'
        · rw [if_pos hc, if_pos hc, ih m2 rest hr1 hr2]
        · rw [if_neg hc, if_neg hc]
          cases hcb : countBackslashes rest with
          | mk k r =>
            cases r with
            | nil =>
              simp only [ih m2 rest hr1 hr2]
            | cons d r' =>
              have hrl : (d :: r').length ≤ rest.length := by
                have := countBackslashes_len rest
                rw [hcb] at this
                exact this
              have hdl : (dropAsciiSpaces r').length ≤ m := by
                have := dropAsciiSpaces_len r'
                simp at hrl
                omega
              have hdl2 : (dropAsciiSpaces r').length ≤ m2 := by
                have := dropAsciiSpaces_len r'
                simp at hrl
                omega
              simp only []
              by_cases hcond : (d = '\n' ∨ d = '\x0d') ∧ k % 2 = 1
              · rw [if_pos hcond, if_pos hcond, ih m2 (dropAsciiSpaces r') hdl hdl2]
              · rw [if_neg hcond, if_neg hcond, ih m2 rest hr1 hr2]

theorem stripAux_replicate :
    ∀ (k f : Nat) (l : List Char),
      stripLineBreaksAux (k + f) (List.replicate k '\\' ++ l)
        = List.replicate k '\\' ++ stripLineBreaksAux f l := by
  intro k
  induction k with
  | zero => intro f l; simp
  | succ m ih =>
    intro f l
    rw [List.replicate_succ, List.cons_append]
    have hfe : m + 1 + f = (m + f) + 1 := by omega
    rw [hfe]
    simp only [stripLineBreaksAux, if_true]
    rw [ih f l]
    simp

/-- C7 (amended): the preprocessing collapses a backslash-newline
continuation only when the odd backslash run is immediately preceded by a
non-backslash character, keeping that character and the even part of the
run and discarding the final backslash, the line terminator and the
whitespace run that follows; an even (escaped) run before a newline is
left untouched.  An occurrence at the very start of the input has no
preceding character and is not collapsed. -/
theorem C7_strip_continuations (c : Char) (k : Nat) (nl : Char) (rest : List Char)
    (hc : c ≠ '\\') (hnl : nl = '\n' ∨ nl = '\r') :
    (k % 2 = 1 →
      stripLineBreaks (c :: (List.replicate k '\\' ++ nl :: rest))
        = c :: (List.replicate (k - 1) '\\' ++ stripLineBreaks (dropAsciiSpaces rest)))
    ∧ (k % 2 = 0 →
      stripLineBreaks (c :: (List.replicate k '\\' ++ nl :: rest))
        = c :: (List.replicate k '\\' ++ stripLineBreaks (nl :: rest))) := by
  have hnlb : nl ≠ '\\' := by
    rcases hnl with h | h <;> subst h <;> decide
  have hlen : (c :: (List.replicate k '\\' ++ nl :: rest)).length = (k + rest.length + 1) + 1 := by
    simp [List.length_append]
    omega
  constructor
  · intro hodd
    unfold stripLineBreaks
    rw [hlen]
    simp only [stripLineBreaksAux]
    rw [if_neg hc, countBackslashes_replicate k nl rest hnlb]
    simp only []
    rw [if_pos ⟨hnl, hodd⟩]
    have hfu : stripLineBreaksAux (k + rest.length + 1) (dropAsciiSpaces rest)
        = stripLineBreaksAux (dropAsciiSpaces rest).length (dropAsciiSpaces rest) := by
      apply stripAux_fuel_irrel
      · have := dropAsciiSpaces_len rest
        omega
      · exact le_refl _
    rw [hfu]
  · intro heven
    unfold stripLineBreaks
    rw [hlen]
    simp only [stripLineBreaksAux]
    rw [if_neg hc, countBackslashes_replicate k nl rest hnlb]
    simp only []
    rw [if_neg (by
      rintro ⟨-, hmod⟩
      omega)]
    have hfe : k + rest.length + 1 = k + (rest.length + 1) := by omega
    rw [hfe, stripAux_replicate k (rest.length + 1) (nl :: rest)]
    rfl

theorem C7_strip_continuations_witness :
    stripLineBreaks ('a' :: (List.replicate 1 '\\' ++ '\n' :: " x".toList))
      = 'a' :: (List.replicate 0 '\\' ++ stripLineBreaks (dropAsciiSpaces " x".toList)) :=
  (C7_strip_continuations 'a' 1 '\n' " x".toList (by decide) (Or.inl rfl)).1 (by decide)

/-- C7 counterexample: at the very start of the input a single unescaped
backslash followed by a newline and whitespace is NOT collapsed, although
the claim requires collapsing at every position where the sequence
occurs. -/
theorem C7_counterexample :
    stripLineBreaks "\\\n x".toList = "\\\n x".toList
      ∧ "\\\n x".toList ≠ "x".toList := by
  decide

/-- C9 (amended): re-applying the engine to the content of its own output
reproduces the output whenever collapsing the escaped-newline
continuations of that content yields the same text as collapsing the
original input — the engine depends on its input only through the
collapsed text.  The property fails in general because a wrap break
inserted before content whitespace lets the collapse absorb that
whitespace. -/
theorem C9_rewrap (u : UnicodeEnv) (orig c : List Char) (fmt : StringFormat) (n : Nat)
    (out : List Char) (hstrip : stripLineBreaks c = stripLineBreaks orig)
    (hout : rewrite_string u orig fmt n = some out) :
    rewrite_string u c fmt n = some out := by
  unfold rewrite_string at hout ⊢
  rw [hstrip]
  exact hout

theorem C9_rewrap_witness :
    rewrite_string demoUni "a \\\n  b".toList fmtD 27 = some "\"a \\\n b\"".toList :=
  C9_rewrap demoUni "a b".toList "a \\\n  b".toList fmtD 27 "\"a \\\n b\"".toList
    (by decide) (by decide)

/-- C9 counterexample: with `trim_end` set, `"aaa bbb"` wraps to
`"\"aaa\\\n bbb\""` — the separating space is trimmed away before the
inserted break.  Feeding the content of that output (between the quotes)
back through the engine at the same format and newline budget collapses
the continuation into `"aaabbb"`, a single unbreakable token that no
longer fits, so the second run returns `none` instead of reproducing the
output. -/
theorem C9_counterexample :
    rewrite_string demoUni "aaa bbb".toList fmtT 27 = some "\"aaa\\\n bbb\"".toList
      ∧ ("\"aaa\\\n bbb\"".toList.drop 1).dropLast = "aaa\\\n bbb".toList
      ∧ stripLineBreaks "aaa\\\n bbb".toList = "aaabbb".toList
      ∧ rewrite_string demoUni "aaa\\\n bbb".toList fmtT 27 = none
      ∧ (none : Option (List Char)) ≠ some "\"aaa\\\n bbb\"".toList := by
  decide

theorem classifySlice_fst_nonterminal (s1 : StringSplitter) (j : Nat) (t : List Char)
    (o : Nat)
    (h : (classifySlice s1 j).1 = SnippetState.LineEnd t o
      ∨ (classifySlice s1 j).1 = SnippetState.EndWithLineFeed t o
      ∨ (classifySlice s1 j).1 = SnippetState.RemovedSignificantLineFeed t o) :
    s1.text.drop j ≠ []
      ∧ ((s1.trim_end = false ∧ t = s1.text.take j)
        ∨ (s1.trim_end = true ∧ t = trimEnd (s1.text.take j))) := by
  simp only [classifySlice, nextBudgetAfterNewline] at h
  by_cases hrem : List.drop j s1.text = []
  · rw [if_pos hrem] at h
    rcases h with h | h | h <;> exact absurd h (by simp)
  · rw [if_neg hrem] at h
    refine ⟨hrem, ?_⟩
    by_cases hA : (!s1.trim_end
        && decide ((List.take j s1.text).getLast? = some '\n')) = true
    · rw [if_pos hA] at h
      have htr : s1.trim_end = false := by
        cases htr2 : s1.trim_end
        · rfl
        · rw [htr2] at hA; simp at hA
      have htext1 : (if (s1.trim_end
            && !decide ((List.take j s1.text).getLast? = some '\n')) = true then
          trimEnd (List.take j s1.text) else List.take j s1.text) = List.take j s1.text := by
        rw [if_neg]
        rw [htr]
        simp
      left
      refine ⟨htr, ?_⟩
      rcases h with h | h | h
      · exact absurd h (by simp)
      · injection h with h1 h2
        rw [← h1, htext1]
      · exact absurd h (by simp)
    · rw [if_neg hA] at h
      by_cases hB : (s1.trim_end
          && decide ((List.take j s1.text).getLast? = some '\n')) = true
      · rw [if_pos hB] at h
        have htr : s1.trim_end = true := by
          cases htr2 : s1.trim_end
          · rw [htr2] at hB; simp at hB
          · rfl
        have hends : decide ((List.take j s1.text).getLast? = some '\n') = true := by
          rw [htr] at hB; simpa using hB
        have htext1 : (if (s1.trim_end
              && !decide ((List.take j s1.text).getLast? = some '\n')) = true then
            trimEnd (List.take j s1.text) else List.take j s1.text) = List.take j s1.text := by
          rw [if_neg]
          rw [hends]
          simp
        right
        refine ⟨htr, ?_⟩
        rcases h with h | h | h
        · exact absurd h (by simp)
        · exact absurd h (by simp)
        · injection h with h1 h2
          rw [← h1, htext1]
      · rw [if_neg hB] at h
        rcases Bool.eq_false_or_eq_true s1.trim_end with htr | htr
        swap
        · left
          refine ⟨htr, ?_⟩
          have htext1 : (if (s1.trim_end
                && !decide ((List.take j s1.text).getLast? = some '\n')) = true then
              trimEnd (List.take j s1.text) else List.take j s1.text)
              = List.take j s1.text := by
            rw [if_neg]
            rw [htr]
            simp
          rcases h with h | h | h
          · injection h with h1 h2
            rw [← h1, htext1]
          · exact absurd h (by simp)
          · exact absurd h (by simp)
        · right
          refine ⟨htr, ?_⟩
          have hends : decide ((List.take j s1.text).getLast? = some '\n') = false := by
            cases hd : decide ((List.take j s1.text).getLast? = some '\n')
            · rfl
            · exact absurd (by rw [htr, hd]; rfl) hB
          have htext1 : (if (s1.trim_end
                && !decide ((List.take j s1.text).getLast? = some '\n')) = true then
              trimEnd (List.take j s1.text) else List.take j s1.text)
              = trimEnd (List.take j s1.text) := by
            rw [if_pos]
            rw [htr, hends]
            rfl
          rcases h with h | h | h
          · injection h with h1 h2
            rw [← h1, htext1]
          · exact absurd h (by simp)
          · exact absurd h (by simp)

/-- C4 (amended): a splitter step on which no URL relocation occurred —
the consumed index equals the naive chosen index, whether or not the URL
flag is set — that emits a non-terminal snippet (`LineEnd`,
`EndWithLineFeed` or `RemovedSignificantLineFeed`) emits text of
displayed width at most the budget active for that step.  (The bound can
fail on URL-relocated steps, and the consume-everything fallback only
ever produces the terminal `EndOfInput` snippet.) -/
theorem C4_width_bound (u : UnicodeEnv) (s : StringSplitter) (st : SnippetState)
    (s' : StringSplitter) (t : List Char) (o : Nat)
    (hnext : StringSplitter.next u s = some (st, s'))
    (hnoreloc : relocated_break_index u s (specChosenIndex u s.text s.max_graphemes s.trim_end)
      = specChosenIndex u s.text s.max_graphemes s.trim_end)
    (hst : st = SnippetState.LineEnd t o ∨ st = SnippetState.EndWithLineFeed t o
      ∨ st = SnippetState.RemovedSignificantLineFeed t o) :
    unicode_str_width u t ≤ s.max_graphemes := by
  have htext : s.text ≠ [] := by
    intro hnil
    unfold StringSplitter.next at hnext
    rw [if_pos hnil] at hnext
    exact Option.noConfusion hnext
  have hspec := next_eq_spec u s htext
  rw [hspec] at hnext
  have heq := Option.some.inj hnext
  rw [update_eq_classify, hnoreloc] at heq
  have hfst : (classifySlice
      { s with contains_url :=
          (urlAdjust u s (specChosenIndex u s.text s.max_graphemes s.trim_end)).2.contains_url }
      (specChosenIndex u s.text s.max_graphemes s.trim_end)).1 = st := by rw [heq]
  have hnt := classifySlice_fst_nonterminal _ (specChosenIndex u s.text s.max_graphemes s.trim_end)
    t o (by
      rcases hst with h | h | h
      · exact Or.inl (by rw [hfst, h])
      · exact Or.inr (Or.inl (by rw [hfst, h]))
      · exact Or.inr (Or.inr (by rw [hfst, h])))
  obtain ⟨hrem0, hcase⟩ := hnt
  have hrem : s.text.drop (specChosenIndex u s.text s.max_graphemes s.trim_end) ≠ [] := hrem0
  have hw' : unicode_str_width u
        (s.text.take (specChosenIndex u s.text s.max_graphemes s.trim_end)) ≤ s.max_graphemes
      ∨ (unicode_str_width u
            (s.text.take (specChosenIndex u s.text s.max_graphemes s.trim_end))
              = s.max_graphemes + 1
          ∧ s.trim_end = true
          ∧ (s.text.take (specChosenIndex u s.text s.max_graphemes s.trim_end)).getLast?.map
              u.isZs = some true) := by
    rcases specChosenIndex_cases u s.text s.max_graphemes s.trim_end with ⟨kk, hmem⟩ | hpb | hlenj
    · have hacc := (lboKeep_iff u s.text s.max_graphemes s.trim_end _).mp
        ((mem_lbo_iff u s.text s.max_graphemes s.trim_end _).mp hmem).2
      exact hacc.2.2
    · exact Or.inl (mem_apb u s.text s.max_graphemes s.trim_end _ hpb).2
    · exact absurd (by rw [hlenj]; exact List.drop_length s.text) hrem
  rcases hcase with ⟨htr0, ht0⟩ | ⟨htr0, ht0⟩
  · have ht : t = s.text.take (specChosenIndex u s.text s.max_graphemes s.trim_end) := ht0
    have htr : s.trim_end = false := htr0
    rcases hw' with h | h
    · rw [ht]; exact h
    · rw [htr] at h
      exact absurd h.2.1 (by simp)
  · have ht : t = trimEnd (s.text.take (specChosenIndex u s.text s.max_graphemes s.trim_end)) :=
      ht0
    rcases hw' with h | h
    · rw [ht]
      exact le_trans (trimEnd_width_le u _) h
    · obtain ⟨hweq, -, hzs⟩ := h
      cases hgl : (s.text.take (specChosenIndex u s.text s.max_graphemes s.trim_end)).getLast?
        with
      | none => rw [hgl] at hzs; simp at hzs
      | some ch =>
        rw [hgl] at hzs
        simp only [Option.map_some'] at hzs
        have hchzs : u.isZs ch = true := by simpa using hzs
        have hws := u.zs_whitespace ch hchzs
        have hcw := u.zs_width ch hchzs
        have hdrop := trimEnd_width_drop u
          (s.text.take (specChosenIndex u s.text s.max_graphemes s.trim_end)) ch hgl hws
        rw [ht]
        omega

theorem C4_width_bound_witness :
    unicode_str_width demoUni "a ".toList ≤ s4w.max_graphemes :=
  C4_width_bound demoUni s4w (SnippetState.LineEnd "a ".toList 2)
    ⟨"b cc".toList, 2, 27, 2, 26, 27, true, false, false⟩ "a ".toList 2 (by decide) (by decide)
    (Or.inl rfl)

/-- C4 counterexample: a successful run — the final width check passes,
since the first line fits the shape width 15 and every later line the
global width 27 — over a text with two URLs, at newline budget 3.  The
second step relocates past the second URL and emits the second line,
`" xx http://c.d \\"`, of width 15 without the continuation marker —
far above that step's active budget 3 — and that line is neither the
last line nor a single token without break opportunities. -/
theorem C4_counterexample :
    rewrite_string demoUni "http://a.b xx http://c.d ee ff".toList fmtC 3
        = some "\"http://a.b \\\n xx http://c.d \\\n ee \\\n ff\"".toList
      ∧ linesOf "\"http://a.b \\\n xx http://c.d \\\n ee \\\n ff\"".toList
          = ["\"http://a.b \\".toList, " xx http://c.d \\".toList,
             " ee \\".toList, " ff\"".toList]
      ∧ (StringSplitter.from_format
            (stripLineBreaks "http://a.b xx http://c.d ee ff".toList) fmtC 3).map
          (fun sp => ((nextState demoUni sp).max_graphemes,
            (StringSplitter.next demoUni (nextState demoUni sp)).map Prod.fst))
        = some (3, some (SnippetState.LineEnd "xx http://c.d ".toList 25))
      ∧ unicode_str_width demoUni (" xx http://c.d \\".toList.dropLast) = 15
      ∧ unicode_str_width demoUni "xx http://c.d ".toList = 14
      ∧ 3 < 14
      ∧ ' ' ∈ " xx http://c.d \\".toList := by
  decide
